import Mathlib

/-!
Verification development for `monopole_radio.py`.

The script computes the radio-source contribution to the sky monopole from a
tabulated source-count distribution.  Its numerical core is:

  * `np.gradient(S)` — centered-difference step sizes (one-sided at the ends);
  * `get_mean_number_of_source_over_4pi` — `dNdSdOmega * 4*np.pi * dS`;
  * `get_cumulative_monopole` — `np.cumsum(dS * S * dNdSdOmega)`;
  * the driver, which prints the total source count, takes the last
    cumulative value as the monopole, and scales it in frequency by a
    power law with spectral index `-0.5`.

Arrays are embedded as `List`s over a field; `np.pi` is a parameter of the
definitions (instantiated with `Real.pi` in the theorems) so that every
definition stays computable.  `np.gradient` raises a `ValueError` on arrays
with fewer than two elements; this is modelled by returning `none`, which
then propagates through `Option` to both callers.
-/

namespace MonopoleRadio

variable {α : Type*}

/-- Value of `np.gradient l` at index `i` (unit spacing): forward difference
at the first index, backward difference at the last index, centered
difference `(l[i+1] - l[i-1]) / 2` in the interior. -/
def gradAt [Field α] (l : List α) (i : ℕ) : α :=
  if i = 0 then l.getD 1 0 - l.getD 0 0
  else if i = l.length - 1 then l.getD i 0 - l.getD (i - 1) 0
  else (l.getD (i + 1) 0 - l.getD (i - 1) 0) / 2

/-- Embedding of `np.gradient` on a 1-d array with default unit spacing.
`np.gradient` raises a `ValueError` when the array has fewer than two
elements (`edge_order + 1` points are required); this is modelled by
returning `none`. -/
def npGradient [Field α] (l : List α) : Option (List α) :=
  if l.length < 2 then none
  else some ((List.range l.length).map (gradAt l))

/-- Running sums of a list starting from accumulator `acc`. -/
def cumsumFrom [Add α] (acc : α) : List α → List α
  | [] => []
  | x :: xs => (acc + x) :: cumsumFrom (acc + x) xs

/-- Embedding of `np.cumsum`: inclusive prefix sums. -/
def cumsum [AddMonoid α] (l : List α) : List α :=
  cumsumFrom 0 l

/-- Embedding of `read_tucci_source_distrib` (monopole_radio.py, lines
17–19): `np.loadtxt` is modelled by the already-parsed two-column table;
the function returns column 0 as `S` and column 1 as `dNdSdOmega`. -/
def read_tucci_source_distrib (table : List (α × α)) : List α × List α :=
  (table.map Prod.fst, table.map Prod.snd)

/-- Embedding of `get_mean_number_of_source_over_4pi` (lines 51–52, 67):
`dS = np.gradient(S)`, return `dNdSdOmega * 4*np.pi * dS` elementwise.
The constant `np.pi` is the parameter `pi`. -/
def get_mean_number_of_source_over_4pi [Field α] (pi : α) (S dNdSdOmega : List α) :
    Option (List α) :=
  (npGradient S).map fun dS =>
    List.zipWith (fun x g => x * 4 * pi * g) dNdSdOmega dS

/-- Embedding of `get_cumulative_monopole` (lines 74–75, 89):
`dS = np.gradient(S)`, return `np.cumsum(dS * S * dNdSdOmega)`. -/
def get_cumulative_monopole [Field α] (S dNdSdOmega : List α) : Option (List α) :=
  (npGradient S).map fun dS =>
    cumsum (List.zipWith (· * ·) (List.zipWith (· * ·) dS S) dNdSdOmega)

/-- Driver line 98: `Ntot_sources = np.sum(mean_numbers_per_patch)`. -/
def Ntot_sources [Field α] (pi : α) (S dNdSdOmega : List α) : Option α :=
  (get_mean_number_of_source_over_4pi pi S dNdSdOmega).map List.sum

/-- Driver line 99, `print("Total number of radio sources", Ntot_sources)`:
the lines the script writes to standard output, each a label paired with a
numeric value.  When the pipeline fails before reaching the print (the
gradient of a too-short array), no line is produced. -/
def driver_stdout [Field α] (pi : α) (S dNdSdOmega : List α) : List (String × α) :=
  match Ntot_sources pi S dNdSdOmega with
  | some n => [("Total number of radio sources", n)]
  | none => []

/-- Driver line 117: `monopole = monopole_fSmax[-1]`, the unmasked monopole
intensity at the reference frequency. -/
def monopole [Field α] (S dNdSdOmega : List α) : Option α :=
  (get_cumulative_monopole S dNdSdOmega).bind List.getLast?

noncomputable section

/-- Reference frequency in GHz (line 8): `ref_freq_radio_GHz = 148`. -/
def ref_freq_radio_GHz : ℝ := 148

/-- Spectral index (line 120): `alpha = -0.5`. -/
def alpha : ℝ := -0.5

/-- Driver line 121 at a single frequency: the frequency-scaled monopole
`monopole * (freq_GHz / ref_freq_radio_GHz) ** alpha` for monopole value
`M0` and frequency `f` (the script evaluates this elementwise on its
frequency grid). -/
def mono_radio (M0 f : ℝ) : ℝ :=
  M0 * (f / ref_freq_radio_GHz) ^ alpha

end

/-! ### Helper lemmas -/

theorem cumsumFrom_length [Add α] (acc : α) (l : List α) :
    (cumsumFrom acc l).length = l.length := by
  induction l generalizing acc with
  | nil => rfl
  | cons x xs ih => simpa [cumsumFrom] using ih (acc + x)

theorem cumsum_length [AddMonoid α] (l : List α) : (cumsum l).length = l.length :=
  cumsumFrom_length 0 l

theorem cumsumFrom_getLast? [AddCommMonoid α] (acc : α) (l : List α) (h : l ≠ []) :
    (cumsumFrom acc l).getLast? = some (acc + l.sum) := by
  induction l generalizing acc with
  | nil => exact absurd rfl h
  | cons x xs ih =>
    cases xs with
    | nil => simp [cumsumFrom]
    | cons y ys =>
      have h2 := ih (acc + x) (by simp)
      rw [cumsumFrom] at h2
      rw [cumsumFrom, cumsumFrom, List.getLast?_cons_cons, h2]
      simp [add_assoc]

theorem cumsum_getLast? [AddCommMonoid α] (l : List α) (h : l ≠ []) :
    (cumsum l).getLast? = some l.sum := by
  rw [cumsum, cumsumFrom_getLast? 0 l h, zero_add]

theorem cumsumFrom_chain' [LinearOrderedField α] (l : List α)
    (h : ∀ x ∈ l, 0 ≤ x) (acc : α) :
    List.Chain' (· ≤ ·) (cumsumFrom acc l) := by
  induction l generalizing acc with
  | nil => simp [cumsumFrom]
  | cons x xs ih =>
    cases xs with
    | nil => simp [cumsumFrom]
    | cons y ys =>
      rw [cumsumFrom, cumsumFrom]
      refine List.Chain'.cons ?_ ?_
      · have hy : 0 ≤ y := h y (by simp)
        linarith
      · have := ih (fun z hz => h z (List.mem_cons_of_mem x hz)) (acc + x)
        rwa [cumsumFrom] at this

theorem cumsum_chain' [LinearOrderedField α] (l : List α) (h : ∀ x ∈ l, 0 ≤ x) :
    List.Chain' (· ≤ ·) (cumsum l) :=
  cumsumFrom_chain' l h 0

theorem npGradient_eq_some [Field α] (l : List α) (h : 2 ≤ l.length) :
    npGradient l = some ((List.range l.length).map (gradAt l)) := by
  rw [npGradient, if_neg (by omega)]

theorem npGradient_length [Field α] (l g : List α) (h : npGradient l = some g) :
    g.length = l.length := by
  rw [npGradient] at h
  by_cases hl : l.length < 2
  · rw [if_pos hl] at h
    exact absurd h (by simp)
  · rw [if_neg hl] at h
    simp only [Option.some.injEq] at h
    rw [← h]
    simp

theorem npGradient_two_le [Field α] (l g : List α) (h : npGradient l = some g) :
    2 ≤ l.length := by
  by_contra hl
  rw [npGradient, if_pos (by omega)] at h
  exact absurd h (by simp)

theorem getD_le_getD_of_pairwise [Preorder α] {z : α} {l : List α}
    (h : l.Pairwise (· ≤ ·)) {i j : ℕ} (hij : i ≤ j) (hj : j < l.length) :
    l.getD i z ≤ l.getD j z := by
  rcases lt_or_eq_of_le hij with hlt | heq
  · rw [List.getD_eq_getElem l z (lt_of_le_of_lt hij hj), List.getD_eq_getElem l z hj]
    exact List.pairwise_iff_get.mp h ⟨i, lt_of_le_of_lt hij hj⟩ ⟨j, hj⟩ hlt
  · subst heq
    exact le_refl _

theorem gradAt_nonneg [LinearOrderedField α] {l : List α}
    (hmono : l.Pairwise (· ≤ ·)) (h2 : 2 ≤ l.length) {i : ℕ} (hi : i < l.length) :
    0 ≤ gradAt l i := by
  rw [gradAt]
  by_cases h0 : i = 0
  · rw [if_pos h0]
    have := getD_le_getD_of_pairwise (z := (0 : α)) hmono
      (show 0 ≤ 1 by omega) (show 1 < l.length by omega)
    linarith
  · rw [if_neg h0]
    by_cases hlast : i = l.length - 1
    · rw [if_pos hlast]
      have := getD_le_getD_of_pairwise (z := (0 : α)) hmono
        (show i - 1 ≤ i by omega) hi
      linarith
    · rw [if_neg hlast]
      have hi1 : i + 1 < l.length := by omega
      have := getD_le_getD_of_pairwise (z := (0 : α)) hmono
        (show i - 1 ≤ i + 1 by omega) hi1
      have h2pos : (0 : α) < 2 := by norm_num
      exact div_nonneg (by linarith) (le_of_lt h2pos)

theorem npGradient_forall_nonneg [LinearOrderedField α] {l g : List α}
    (hmono : l.Pairwise (· ≤ ·)) (hg : npGradient l = some g) :
    ∀ x ∈ g, 0 ≤ x := by
  have h2 := npGradient_two_le l g hg
  rw [npGradient_eq_some l h2, Option.some.injEq] at hg
  intro x hx
  rw [← hg] at hx
  rcases List.mem_map.mp hx with ⟨i, hi, rfl⟩
  exact gradAt_nonneg hmono h2 (List.mem_range.mp hi)

theorem forall_mem_zipWith {β γ δ : Type*} {f : β → γ → δ} {P : δ → Prop}
    (a : List β) :
    ∀ (b : List γ), (∀ x ∈ a, ∀ y ∈ b, P (f x y)) →
      ∀ z ∈ List.zipWith f a b, P z := by
  induction a with
  | nil => intro b h z hz; simp at hz
  | cons x xs ih =>
    intro b h z hz
    cases b with
    | nil => simp at hz
    | cons y ys =>
      rw [List.zipWith_cons_cons] at hz
      rcases List.mem_cons.mp hz with hz | hz
      · rw [hz]
        exact h x (by simp) y (by simp)
      · exact ih ys
          (fun u hu v hv => h u (List.mem_cons_of_mem x hu) v (List.mem_cons_of_mem y hv))
          z hz

theorem sum_zipWith_mul_eq_finset_sum [Field α] :
    ∀ (n : ℕ) (a b c : List α), a.length = n → b.length = n → c.length = n →
      (List.zipWith (· * ·) (List.zipWith (· * ·) a b) c).sum =
        ∑ i in Finset.range n, a.getD i 0 * b.getD i 0 * c.getD i 0 := by
  intro n
  induction n with
  | zero =>
    intro a b c ha _ _
    rw [List.eq_nil_of_length_eq_zero ha]
    simp
  | succ n ih =>
    intro a b c ha hb hc
    cases a with
    | nil => simp at ha
    | cons x xs =>
      cases b with
      | nil => simp at hb
      | cons y ys =>
        cases c with
        | nil => simp at hc
        | cons z zs =>
          rw [List.zipWith_cons_cons, List.zipWith_cons_cons, List.sum_cons,
            Finset.sum_range_succ']
          rw [ih xs ys zs (by simpa using ha) (by simpa using hb) (by simpa using hc)]
          simp [add_comm]

theorem gradList_getD [Field α] (l : List α) {i : ℕ} (hi : i < l.length) :
    ((List.range l.length).map (gradAt l)).getD i 0 = gradAt l i := by
  rw [List.getD_eq_getElem _ _ (by simpa using hi)]
  simp

theorem integrand_eq_mean_scaled :
    ∀ (dS S d : List ℝ),
      List.zipWith (fun s m => s / (4 * Real.pi) * m) S
        (List.zipWith (fun x g => x * 4 * Real.pi * g) d dS) =
      List.zipWith (· * ·) (List.zipWith (· * ·) dS S) d := by
  intro dS
  induction dS with
  | nil => intro S d; cases S <;> cases d <;> simp
  | cons g gs ih =>
    intro S d
    cases S with
    | nil => simp
    | cons s ss =>
      cases d with
      | nil => simp
      | cons x xs =>
        rw [List.zipWith_cons_cons, List.zipWith_cons_cons, List.zipWith_cons_cons,
          List.zipWith_cons_cons, ih ss xs]
        have hpi := Real.pi_ne_zero
        congr 1
        field_simp
        ring

/-! ### Claims -/

/-- C5: for the inputs `S = [1,2,3]`, `dNdSdOmega = [1,1,1]`, the gradient
step sizes are `[1,1,1]`, `get_mean_number_of_source_over_4pi` returns
`[4π,4π,4π]`, and `get_cumulative_monopole` returns `[1,3,6]`. -/
theorem end_to_end_scenario :
    npGradient ([1, 2, 3] : List ℝ) = some [1, 1, 1] ∧
    get_mean_number_of_source_over_4pi Real.pi ([1, 2, 3] : List ℝ) [1, 1, 1] =
      some [4 * Real.pi, 4 * Real.pi, 4 * Real.pi] ∧
    get_cumulative_monopole ([1, 2, 3] : List ℝ) [1, 1, 1] = some [1, 3, 6] := by
  refine ⟨?_, ?_, ?_⟩
  · norm_num [npGradient, gradAt, List.range_succ]
  · norm_num [get_mean_number_of_source_over_4pi, npGradient, gradAt, List.range_succ]
  · norm_num [get_cumulative_monopole, npGradient, gradAt, List.range_succ,
      cumsum, cumsumFrom]

/-- C6: the frequency-scaled monopole is the pure power law
`M0 * (f / f0) ^ (-0.5)` with `f0 = 148`; at `f = f0` it equals `M0` and at
`f = 2 * f0` it equals `M0 / √2`. -/
theorem mono_radio_power_law (M0 f : ℝ) :
    mono_radio M0 f = M0 * (f / ref_freq_radio_GHz) ^ (-0.5 : ℝ) ∧
    mono_radio M0 ref_freq_radio_GHz = M0 ∧
    mono_radio M0 (2 * ref_freq_radio_GHz) = M0 / Real.sqrt 2 := by
  refine ⟨rfl, ?_, ?_⟩
  · rw [mono_radio, div_self (by norm_num [ref_freq_radio_GHz]), alpha, Real.one_rpow,
      mul_one]
  · rw [mono_radio, mul_div_assoc, div_self (by norm_num [ref_freq_radio_GHz]), mul_one,
      alpha, show (-0.5 : ℝ) = -(1 / 2) by norm_num,
      Real.rpow_neg (by norm_num : (0 : ℝ) ≤ 2), ← Real.sqrt_eq_rpow,
      div_eq_mul_inv]

/-- C7: the loader returns the two columns of the table as two equal-length
sequences in row order; on the table `[[1,10],[2,5]]` it returns `[1,2]`
and `[10,5]`. -/
theorem read_tucci_columns :
    read_tucci_source_distrib ([(1, 10), (2, 5)] : List (ℝ × ℝ)) = ([1, 2], [10, 5]) ∧
    ∀ (table : List (ℝ × ℝ)),
      (read_tucci_source_distrib table).1.length = (read_tucci_source_distrib table).2.length ∧
      (read_tucci_source_distrib table).1 = table.map Prod.fst ∧
      (read_tucci_source_distrib table).2 = table.map Prod.snd := by
  refine ⟨rfl, fun table => ⟨?_, rfl, rfl⟩⟩
  simp [read_tucci_source_distrib]

/-- C8: the driver writes exactly one line to standard output, the label
`"Total number of radio sources"` together with the sum of the array
returned by `get_mean_number_of_source_over_4pi`. -/
theorem driver_stdout_single_line (S d m : List ℝ)
    (hm : get_mean_number_of_source_over_4pi Real.pi S d = some m) :
    driver_stdout Real.pi S d = [("Total number of radio sources", m.sum)] := by
  rw [driver_stdout, Ntot_sources, hm, Option.map_some']

/-- C8 witness: on `S = [1,2,3]`, `dNdSdOmega = [1,1,1]` the driver prints
the single line with value `4π + 4π + 4π = 12π`. -/
theorem driver_stdout_single_line_witness :
    driver_stdout Real.pi ([1, 2, 3] : List ℝ) [1, 1, 1] =
      [("Total number of radio sources",
        ([4 * Real.pi, 4 * Real.pi, 4 * Real.pi] : List ℝ).sum)] :=
  driver_stdout_single_line [1, 2, 3] [1, 1, 1] [4 * Real.pi, 4 * Real.pi, 4 * Real.pi]
    (by norm_num [get_mean_number_of_source_over_4pi, npGradient, gradAt, List.range_succ])

/-- C10: on arrays with fewer than two elements both the mean-count routine
and the cumulative-monopole routine fail (the numerical gradient requires
at least two points), so neither returns a result. -/
theorem short_input_fails (S d : List ℝ) (h : S.length < 2) :
    get_mean_number_of_source_over_4pi Real.pi S d = none ∧
    get_cumulative_monopole S d = none := by
  constructor
  · rw [get_mean_number_of_source_over_4pi, npGradient, if_pos h, Option.map_none']
  · rw [get_cumulative_monopole, npGradient, if_pos h, Option.map_none']

/-- C10 witness: the single-element input `S = [1]`, `dNdSdOmega = [1]`
produces no result from either routine. -/
theorem short_input_fails_witness :
    get_mean_number_of_source_over_4pi Real.pi ([1] : List ℝ) [1] = none ∧
    get_cumulative_monopole ([1] : List ℝ) [1] = none :=
  short_input_fails [1] [1] (by norm_num)

/-- C1: the final element of the cumulative monopole equals the sum over
all indices `i` of `step_i * S_i * dNdSdOmega_i` with `step_i` the
numerical-gradient step, and the driver's monopole is that final element. -/
theorem cumulative_last_eq_sum (S d : List ℝ) (hlen : S.length = d.length)
    (dS : List ℝ) (hg : npGradient S = some dS)
    (c : List ℝ) (hc : get_cumulative_monopole S d = some c) :
    c.getLast? =
      some (∑ i ∈ Finset.range S.length, dS.getD i 0 * S.getD i 0 * d.getD i 0) ∧
    monopole S d =
      some (∑ i ∈ Finset.range S.length, dS.getD i 0 * S.getD i 0 * d.getD i 0) := by
  have h2 := npGradient_two_le S dS hg
  have hdS : dS.length = S.length := npGradient_length S dS hg
  rw [get_cumulative_monopole, hg, Option.map_some', Option.some.injEq] at hc
  have hlenL :
      (List.zipWith (· * ·) (List.zipWith (· * ·) dS S) d).length = S.length := by
    simp [List.length_zipWith, hdS, ← hlen]
  have hLne : List.zipWith (· * ·) (List.zipWith (· * ·) dS S) d ≠ [] := by
    intro hnil
    rw [hnil] at hlenL
    simp at hlenL
    omega
  have hlast : c.getLast? =
      some (∑ i ∈ Finset.range S.length, dS.getD i 0 * S.getD i 0 * d.getD i 0) := by
    rw [← hc, cumsum_getLast? _ hLne,
      sum_zipWith_mul_eq_finset_sum S.length dS S d hdS rfl hlen.symm]
  refine ⟨hlast, ?_⟩
  rw [monopole, get_cumulative_monopole, hg, Option.map_some', Option.some_bind, hc, hlast]

/-- C1 witness: on `S = [1,2,3]`, `dNdSdOmega = [1,1,1]` (steps `[1,1,1]`,
cumulative `[1,3,6]`) the final value `6` equals the Riemann sum. -/
theorem cumulative_last_eq_sum_witness :
    ([1, 3, 6] : List ℝ).getLast? =
      some (∑ i ∈ Finset.range ([1, 2, 3] : List ℝ).length,
        ([1, 1, 1] : List ℝ).getD i 0 * ([1, 2, 3] : List ℝ).getD i 0 *
          ([1, 1, 1] : List ℝ).getD i 0) ∧
    monopole ([1, 2, 3] : List ℝ) [1, 1, 1] =
      some (∑ i ∈ Finset.range ([1, 2, 3] : List ℝ).length,
        ([1, 1, 1] : List ℝ).getD i 0 * ([1, 2, 3] : List ℝ).getD i 0 *
          ([1, 1, 1] : List ℝ).getD i 0) :=
  cumulative_last_eq_sum [1, 2, 3] [1, 1, 1] (by norm_num) [1, 1, 1]
    (by norm_num [npGradient, gradAt, List.range_succ]) [1, 3, 6]
    (by norm_num [get_cumulative_monopole, npGradient, gradAt, List.range_succ,
      cumsum, cumsumFrom])

/-- C2 counterexample: `S = [2,1]` and `dNdSdOmega = [1,1]` are equal-length
arrays with non-negative elements, yet the cumulative monopole `[-2,-3]` is
not monotonically non-decreasing. -/
theorem cumulative_monotone_counterexample :
    ([2, 1] : List ℝ).length = ([1, 1] : List ℝ).length ∧
    (∀ x ∈ ([2, 1] : List ℝ), 0 ≤ x) ∧
    (∀ x ∈ ([1, 1] : List ℝ), 0 ≤ x) ∧
    get_cumulative_monopole ([2, 1] : List ℝ) [1, 1] = some [-2, -3] ∧
    ¬ List.Chain' (· ≤ ·) ([-2, -3] : List ℝ) := by
  refine ⟨rfl, ?_, ?_, ?_, ?_⟩
  · intro x hx
    rcases List.mem_cons.mp hx with h | h
    · norm_num [h]
    · rcases List.mem_singleton.mp h with h
      norm_num [h]
  · intro x hx
    rcases List.mem_cons.mp hx with h | h
    · norm_num [h]
    · rcases List.mem_singleton.mp h with h
      norm_num [h]
  · norm_num [get_cumulative_monopole, npGradient, gradAt, List.range_succ,
      cumsum, cumsumFrom]
  · norm_num [List.chain'_cons]

/-- C2 (amended): for equal-length arrays with `S` non-decreasing,
`S` non-negative elementwise and `dNdSdOmega` non-negative elementwise, the
cumulative monopole sequence is monotonically non-decreasing. -/
theorem cumulative_monotone_of_sorted (S d : List ℝ) (hlen : S.length = d.length)
    (hmono : S.Pairwise (· ≤ ·)) (hS : ∀ x ∈ S, 0 ≤ x) (hd : ∀ x ∈ d, 0 ≤ x)
    (c : List ℝ) (hc : get_cumulative_monopole S d = some c) :
    List.Chain' (· ≤ ·) c := by
  cases h : npGradient S with
  | none =>
    rw [get_cumulative_monopole, h] at hc
    simp at hc
  | some dS =>
    rw [get_cumulative_monopole, h, Option.map_some', Option.some.injEq] at hc
    rw [← hc]
    apply cumsum_chain'
    have hdSpos := npGradient_forall_nonneg hmono h
    have hinner : ∀ u ∈ List.zipWith (· * ·) dS S, 0 ≤ u :=
      forall_mem_zipWith dS S (fun a ha b hb => mul_nonneg (hdSpos a ha) (hS b hb))
    exact forall_mem_zipWith _ d
      (fun u hu v hv => mul_nonneg (hinner u hu) (hd v hv))

/-- C2 witness: on the non-decreasing non-negative input `S = [1,2,3]`,
`dNdSdOmega = [1,1,1]` the cumulative sequence `[1,3,6]` is non-decreasing. -/
theorem cumulative_monotone_of_sorted_witness :
    List.Chain' (· ≤ ·) ([1, 3, 6] : List ℝ) :=
  cumulative_monotone_of_sorted [1, 2, 3] [1, 1, 1] (by norm_num)
    (by norm_num [List.pairwise_cons])
    (by
      intro x hx
      rcases List.mem_cons.mp hx with h | h
      · norm_num [h]
      · rcases List.mem_cons.mp h with h | h
        · norm_num [h]
        · rcases List.mem_singleton.mp h with h
          norm_num [h])
    (by
      intro x hx
      rcases List.mem_cons.mp hx with h | h
      · norm_num [h]
      · rcases List.mem_cons.mp h with h | h
        · norm_num [h]
        · rcases List.mem_singleton.mp h with h
          norm_num [h])
    [1, 3, 6]
    (by norm_num [get_cumulative_monopole, npGradient, gradAt, List.range_succ,
      cumsum, cumsumFrom])

/-- C3: for `S` strictly increasing and `dNdSdOmega` non-negative of the
same length, the mean-count output has the same length as `S` and every
element is non-negative. -/
theorem mean_counts_nonneg (S d : List ℝ) (hlen : S.length = d.length)
    (hsorted : S.Pairwise (· < ·)) (hd : ∀ x ∈ d, 0 ≤ x)
    (out : List ℝ) (hout : get_mean_number_of_source_over_4pi Real.pi S d = some out) :
    out.length = S.length ∧ ∀ x ∈ out, 0 ≤ x := by
  cases h : npGradient S with
  | none =>
    rw [get_mean_number_of_source_over_4pi, h] at hout
    simp at hout
  | some dS =>
    have hdS : dS.length = S.length := npGradient_length S dS h
    rw [get_mean_number_of_source_over_4pi, h, Option.map_some',
      Option.some.injEq] at hout
    rw [← hout]
    constructor
    · simp [List.length_zipWith, hdS, ← hlen]
    · have hmono : S.Pairwise (· ≤ ·) := hsorted.imp le_of_lt
      have hdSpos := npGradient_forall_nonneg hmono h
      exact forall_mem_zipWith d dS
        (fun x hx g hg =>
          mul_nonneg
            (mul_nonneg (mul_nonneg (hd x hx) (by norm_num)) Real.pi_pos.le)
            (hdSpos g hg))

/-- C3 witness: on `S = [1,2,3]`, `dNdSdOmega = [1,1,1]` the output
`[4π,4π,4π]` has length 3 and non-negative entries. -/
theorem mean_counts_nonneg_witness :
    ([4 * Real.pi, 4 * Real.pi, 4 * Real.pi] : List ℝ).length =
      ([1, 2, 3] : List ℝ).length ∧
    ∀ x ∈ ([4 * Real.pi, 4 * Real.pi, 4 * Real.pi] : List ℝ), 0 ≤ x :=
  mean_counts_nonneg [1, 2, 3] [1, 1, 1] (by norm_num)
    (by norm_num [List.pairwise_cons])
    (by
      intro x hx
      rcases List.mem_cons.mp hx with h | h
      · norm_num [h]
      · rcases List.mem_cons.mp h with h | h
        · norm_num [h]
        · rcases List.mem_singleton.mp h with h
          norm_num [h])
    [4 * Real.pi, 4 * Real.pi, 4 * Real.pi]
    (by norm_num [get_mean_number_of_source_over_4pi, npGradient, gradAt,
      List.range_succ])

/-- C4: the step array produced by the numerical gradient has the same
length as `S`, equals the forward difference at the first index, the
backward difference at the last index and the centered difference
`(S[i+1] - S[i-1]) / 2` at interior indices, and the mean-count routine
returns exactly `dNdSdOmega * 4 * π * step` elementwise. -/
theorem mean_counts_formula (S d step : List ℝ) (hlen : S.length = d.length)
    (hg : npGradient S = some step) :
    step.length = S.length ∧
    step.getD 0 0 = S.getD 1 0 - S.getD 0 0 ∧
    step.getD (S.length - 1) 0 =
      S.getD (S.length - 1) 0 - S.getD (S.length - 2) 0 ∧
    (∀ i, 0 < i → i < S.length - 1 →
      step.getD i 0 = (S.getD (i + 1) 0 - S.getD (i - 1) 0) / 2) ∧
    get_mean_number_of_source_over_4pi Real.pi S d =
      some (List.zipWith (fun x g => x * 4 * Real.pi * g) d step) := by
  have h2 := npGradient_two_le S step hg
  have hstep : step = (List.range S.length).map (gradAt S) := by
    rw [npGradient_eq_some S h2, Option.some.injEq] at hg
    exact hg.symm
  subst hstep
  refine ⟨by simp, ?_, ?_, ?_, ?_⟩
  · rw [gradList_getD S (by omega), gradAt, if_pos rfl]
  · rw [gradList_getD S (by omega), gradAt, if_neg (by omega), if_pos rfl]
    have he : S.length - 1 - 1 = S.length - 2 := by omega
    rw [he]
  · intro i h0i hilast
    rw [gradList_getD S (by omega), gradAt, if_neg (by omega), if_neg (by omega)]
  · rw [get_mean_number_of_source_over_4pi, npGradient_eq_some S h2, Option.map_some']

/-- C4 witness: on `S = [1,2,3]`, `dNdSdOmega = [1,1,1]` with step array
`[1,1,1]` all the difference formulas and the elementwise product hold. -/
theorem mean_counts_formula_witness :
    ([1, 1, 1] : List ℝ).length = ([1, 2, 3] : List ℝ).length ∧
    ([1, 1, 1] : List ℝ).getD 0 0 =
      ([1, 2, 3] : List ℝ).getD 1 0 - ([1, 2, 3] : List ℝ).getD 0 0 ∧
    ([1, 1, 1] : List ℝ).getD (([1, 2, 3] : List ℝ).length - 1) 0 =
      ([1, 2, 3] : List ℝ).getD (([1, 2, 3] : List ℝ).length - 1) 0 -
        ([1, 2, 3] : List ℝ).getD (([1, 2, 3] : List ℝ).length - 2) 0 ∧
    (∀ i, 0 < i → i < ([1, 2, 3] : List ℝ).length - 1 →
      ([1, 1, 1] : List ℝ).getD i 0 =
        (([1, 2, 3] : List ℝ).getD (i + 1) 0 - ([1, 2, 3] : List ℝ).getD (i - 1) 0) / 2) ∧
    get_mean_number_of_source_over_4pi Real.pi ([1, 2, 3] : List ℝ) [1, 1, 1] =
      some (List.zipWith (fun x g => x * 4 * Real.pi * g)
        ([1, 1, 1] : List ℝ) [1, 1, 1]) :=
  mean_counts_formula [1, 2, 3] [1, 1, 1] [1, 1, 1] (by norm_num)
    (by norm_num [npGradient, gradAt, List.range_succ])

/-- C9: the cumulative monopole equals the inclusive prefix sum of
`S / (4π)` multiplied elementwise by the mean-count output: the two
routines share the same per-bin step. -/
theorem cumulative_eq_scaled_mean_prefix_sum (S d : List ℝ)
    (hlen : S.length = d.length) (c m : List ℝ)
    (hc : get_cumulative_monopole S d = some c)
    (hm : get_mean_number_of_source_over_4pi Real.pi S d = some m) :
    c = cumsum (List.zipWith (fun s x => s / (4 * Real.pi) * x) S m) := by
  cases h : npGradient S with
  | none =>
    rw [get_cumulative_monopole, h] at hc
    simp at hc
  | some dS =>
    rw [get_cumulative_monopole, h, Option.map_some', Option.some.injEq] at hc
    rw [get_mean_number_of_source_over_4pi, h, Option.map_some',
      Option.some.injEq] at hm
    rw [← hc, ← hm, integrand_eq_mean_scaled dS S d]

/-- C9 witness: on `S = [1,2,3]`, `dNdSdOmega = [1,1,1]` the cumulative
output `[1,3,6]` is the prefix sum of `S/(4π)` times `[4π,4π,4π]`. -/
theorem cumulative_eq_scaled_mean_prefix_sum_witness :
    ([1, 3, 6] : List ℝ) =
      cumsum (List.zipWith (fun s x => s / (4 * Real.pi) * x)
        ([1, 2, 3] : List ℝ) [4 * Real.pi, 4 * Real.pi, 4 * Real.pi]) :=
  cumulative_eq_scaled_mean_prefix_sum [1, 2, 3] [1, 1, 1] (by norm_num)
    [1, 3, 6] [4 * Real.pi, 4 * Real.pi, 4 * Real.pi]
    (by norm_num [get_cumulative_monopole, npGradient, gradAt, List.range_succ,
      cumsum, cumsumFrom])
    (by norm_num [get_mean_number_of_source_over_4pi, npGradient, gradAt,
      List.range_succ])

end MonopoleRadio
